import Mathlib

/-!
A verification development for the `aiplay` site-scoped web crawler.

Python strings manipulated by the crawler are modelled as `List Char`
(occasionally `String` where only equality is needed).  Python `datetime`
values are modelled as `Int` (a count of seconds); SQLite timestamps inherit
that model.  Python `float` scores are modelled as `ℚ`.  Fallible code is
modelled with `Option`.
-/

namespace Aiplay

/-- Model of Python `str.startswith(pat)` on `List Char`. -/
def beginsWith : List Char → List Char → Bool
  | [], _ => true
  | _ :: _, [] => false
  | p :: ps, c :: cs => p = c && beginsWith ps cs

/-- The remainder of `s` strictly after the first occurrence of `c`
(`none` when `c` does not occur).  Together with `List.takeWhile (· ≠ c)`
this models Python `s.split(c, 1)`. -/
def afterFirst (c : Char) : List Char → Option (List Char)
  | [] => none
  | x :: xs => if x = c then some xs else afterFirst c xs

/-- Model of Python `s.split(c)` for a one-character separator:
always returns at least one (possibly empty) part. -/
def splitChar (c : Char) : List Char → List (List Char)
  | [] => [[]]
  | x :: xs =>
    if x = c then [] :: splitChar c xs
    else
      match splitChar c xs with
      | [] => [[x]]
      | h :: t => (x :: h) :: t

/-- Model of Python `c.join(parts)` for a one-character separator. -/
def intercalateChar (c : Char) : List (List Char) → List Char
  | [] => []
  | [p] => p
  | p :: ps => p ++ c :: intercalateChar c ps

/-- The remainder of a URL after the first `://` marker, if any. -/
def afterSchemeMarker : List Char → Option (List Char)
  | ':' :: '/' :: '/' :: rest => some rest
  | _ :: rest => afterSchemeMarker rest
  | [] => none

/-- Model of `urllib.parse.urlparse(url).netloc` for absolute URLs:
the text between `://` and the following `/`, `?` or `#`.
URLs without a `://` marker have an empty netloc. -/
def urlNetloc (url : List Char) : List Char :=
  match afterSchemeMarker url with
  | some rest => rest.takeWhile (fun c => !(c = '/' || c = '?' || c = '#'))
  | none => []

/-- Model of `urllib.parse.urlparse(url).path` for absolute URLs: the text
from the first `/` after the netloc up to the query or fragment. -/
def urlPath (url : List Char) : List Char :=
  match afterSchemeMarker url with
  | some rest =>
    (rest.dropWhile (fun c => !(c = '/' || c = '?' || c = '#'))).takeWhile
      (fun c => !(c = '?' || c = '#'))
  | none => []

/-- Model of `urllib.parse.urlparse(url).scheme` for URLs carrying a
`://` marker. -/
def urlScheme (url : List Char) : List Char :=
  match afterSchemeMarker url with
  | some _ => url.takeWhile (· ≠ ':')
  | none => []

/-- Model of `len(path.lstrip("/").rstrip("/").split("/"))`
from `Crawler.allowed_to_crawl` (crawl.py line 140). -/
def numComponents (path : List Char) : Nat :=
  (splitChar '/' (((path.dropWhile (· = '/')).reverse.dropWhile (· = '/')).reverse)).length

/-- Everything after the netloc of an absolute URL — the
`path;params?query#fragment` tail that `urllib.robotparser.can_fetch`
reassembles with `urlunparse` after parsing.  A string without a `://`
marker is its own path (`urlparse("*").path == "*"`). -/
def urlPathFull (url : List Char) : List Char :=
  match afterSchemeMarker url with
  | some rest => rest.dropWhile (fun c => !(c = '/' || c = '?' || c = '#'))
  | none => url

/-- Uppercase hexadecimal digit, as `urllib.parse.quote` emits. -/
def hexDigit (n : Nat) : Char :=
  if n < 10 then Char.ofNat ('0'.toNat + n) else Char.ofNat ('A'.toNat + n - 10)

/-- One character of `urllib.parse.quote(s)` with the default `safe="/"`:
letters, digits, `_.-~` and `/` pass through, everything else becomes
`%XX`. -/
def quoteChar (c : Char) : List Char :=
  if c.isAlphanum || c ∈ ['_', '.', '-', '~', '/'] then [c]
  else ['%', hexDigit (c.toNat / 16), hexDigit (c.toNat % 16)]

/-- Model of `urllib.parse.quote` with the default safe set, for the ASCII
strings the crawler handles. -/
def pyQuote (s : List Char) : List Char :=
  (s.map quoteChar).flatten

/-- A hexadecimal digit's value, either case (codepoints: digits 48-57,
uppercase 65-70, lowercase 97-102). -/
def hexVal (c : Char) : Option Nat :=
  let n := c.toNat
  if 48 ≤ n ∧ n ≤ 57 then some (n - 48)
  else if 65 ≤ n ∧ n ≤ 70 then some (n - 55)
  else if 97 ≤ n ∧ n ≤ 102 then some (n - 87)
  else none

/-- Model of `urllib.parse.unquote` at the character level (the UTF-8
re-decoding of multi-byte escapes is out of scope; the crawler's URLs are
ASCII): a valid `%XX` escape becomes its character, anything else passes
through. -/
def pyUnquote : List Char → List Char
  | '%' :: a :: b :: rest =>
    match hexVal a, hexVal b with
    | some x, some y => Char.ofNat (16 * x + y) :: pyUnquote rest
    | _, _ => '%' :: pyUnquote (a :: b :: rest)
  | c :: rest => c :: pyUnquote rest
  | [] => []

/-- Modelled from the stdlib `urllib.robotparser.RuleLine`: a quoted path
and an allowance flag (`Allow` = `true`, `Disallow` = `false`). -/
structure RuleLine where
  path : List Char
  allowance : Bool
deriving DecidableEq

/-- Modelled from the stdlib `urllib.robotparser.Entry`: user-agent
patterns and their rule lines. -/
structure RobotsEntry where
  useragents : List (List Char)
  rulelines : List RuleLine
deriving DecidableEq

/-- Modelled from the stdlib `urllib.robotparser.RobotFileParser` state
after parsing: entries (those naming `*` go to `default_entry`), the
`disallow_all` / `allow_all` outcomes of `read()`, and whether the parser
has seen a file at all (`last_checked`, a timestamp in CPython, falsy until
`parse` runs). -/
structure RobotsTxt where
  entries : List RobotsEntry
  default_entry : Option RobotsEntry
  disallow_all : Bool
  allow_all : Bool
  last_checked : Bool
deriving DecidableEq

/-- `RuleLine.applies_to(filename)`: the rule path `*` matches everything,
otherwise a prefix test. -/
def ruleApplies (filename : List Char) (line : RuleLine) : Bool :=
  line.path = ['*'] || beginsWith line.path filename

/-- `Entry.allowance(filename)`: the first applying rule line decides;
no applying rule means allowed. -/
def entryAllowance (filename : List Char) (e : RobotsEntry) : Bool :=
  match e.rulelines.find? (ruleApplies filename) with
  | some line => line.allowance
  | none => true

/-- Python `s.lower()` on a character list (ASCII). -/
def toLowerCl (s : List Char) : List Char :=
  s.map Char.toLower

/-- Python's substring test `p in s`. -/
def containsSub (p : List Char) : List Char → Bool
  | [] => beginsWith p []
  | c :: rest => beginsWith p (c :: rest) || containsSub p rest

/-- `Entry.applies_to(useragent)`: the agent pattern `*` matches every
user agent; otherwise the lowered pattern must be a substring of the
lowered first `/`-component of the user agent. -/
def agentApplies (useragent : List Char) (e : RobotsEntry) : Bool :=
  e.useragents.any (fun agent =>
    agent = ['*'] || containsSub (toLowerCl agent) (toLowerCl (useragent.takeWhile (· ≠ '/'))))

/-- The filename `can_fetch` matches rules against: unquote the URL, keep
everything after the netloc, re-quote, and fall back to `/` when empty. -/
def urlFilename (url : List Char) : List Char :=
  let f := pyQuote (urlPathFull (pyUnquote url))
  if f = [] then ['/'] else f

/-- Modelled from the stdlib `urllib.robotparser.RobotFileParser.can_fetch
(useragent, url)`: honour `disallow_all` / `allow_all`, refuse everything
until a file has been parsed, then let the first entry applying to
`useragent` (or else the `*` default entry) judge the URL's filename. -/
def can_fetch (r : RobotsTxt) (useragent url : List Char) : Bool :=
  if r.disallow_all then false
  else if r.allow_all then true
  else if ¬ r.last_checked then false
  else
    match r.entries.find? (agentApplies useragent) with
    | some e => entryAllowance (urlFilename url) e
    | none =>
      match r.default_entry with
      | some e => entryAllowance (urlFilename url) e
      | none => true

/-- Model of `Crawler.robot_allowed` (crawl.py lines 117-118):
`self.robots.can_fetch(url, "*")`.  The stdlib signature is
`can_fetch(useragent, url)`, so the URL is passed as the USER AGENT and the
literal string `*` as the URL — the robots rules are matched against the
quoted path `%2A`, not against the URL being admitted. -/
def robot_allowed (r : RobotsTxt) (url : List Char) : Bool :=
  can_fetch r url ['*']

/-- The parser state `RobotFileParser.parse` produces for the robots file
`User-agent: *` / `Disallow: /private`: the entry names `*`, so it becomes
the default entry, with one `Disallow` rule for the quoted path
`/private`. -/
def demoRobots : RobotsTxt where
  entries := []
  default_entry := some ⟨[['*']], [⟨"/private".toList, false⟩]⟩
  disallow_all := false
  allow_all := false
  last_checked := true

/-- The configuration fields of `Crawler` relevant to frontier admission
(crawl.py `Crawler.__init__`).  `robots` is the parsed
`RobotFileParser` state consulted through `Crawler.robot_allowed`. -/
structure CrawlCfg where
  seed_url : List Char
  robots : RobotsTxt
  max_count : Option Nat
  max_depth : Option Nat
  max_components : Option Nat

/-- Model of `self.domain = urlparse(seed_url).netloc` (crawl.py line 62). -/
def CrawlCfg.domain (c : CrawlCfg) : List Char :=
  urlNetloc c.seed_url

/-- Model of `Crawler.allowed_to_crawl` (crawl.py lines 120-144). -/
def allowed_to_crawl (c : CrawlCfg) (url : List Char) : Bool :=
  if ¬ robot_allowed c.robots url then false
  else if urlNetloc url ≠ c.domain then false
  else
    match c.max_components with
    | some m => if m < numComponents (urlPath url) then false else true
    | none => true

/-- The shared mutable frontier state of `Crawler`: `self.visited`,
`self.queue` and `self.count` (crawl.py lines 78-82). -/
structure Frontier where
  visited : List (List Char)
  queue : List (List Char × Nat)
  count : Nat
deriving DecidableEq

def initFrontier : Frontier := ⟨[], [], 0⟩

/-- Python truthiness of an `int | None` option (`if self.max_count and ...`):
`None` and `0` are falsy. -/
def truthy : Option Nat → Bool
  | none => false
  | some 0 => false
  | some (_ + 1) => true

/-- Model of `Crawler.add_to_queue` (crawl.py lines 146-167): returns whether
the URL was admitted together with the updated frontier state. -/
def add_to_queue (c : CrawlCfg) (s : Frontier) (norm_url : List Char)
    (depth : Nat) : Bool × Frontier :=
  if truthy c.max_count && decide (c.max_count.getD 0 ≤ s.count) then
    (false, s)
  else if truthy c.max_depth && decide (c.max_depth.getD 0 < depth) then
    (false, s)
  else if norm_url ∈ s.visited then
    (false, s)
  else
    (true, ⟨norm_url :: s.visited, s.queue ++ [(norm_url, depth + 1)], s.count + 1⟩)

/-- The frontier's seed enqueue performed by `Crawler.run`
(crawl.py line 366): `self.add_to_queue(self.seed_url, 0)` on the
freshly initialized frontier, with no `allowed_to_crawl` filter. -/
def runSeedEnqueue (c : CrawlCfg) : Bool × Frontier :=
  add_to_queue c initFrontier c.seed_url 0

/-- The admission predicate exactly as claim C1 words it: robots.txt allows
the URL for the wildcard user agent — i.e. a PROPER
`can_fetch(useragent := "*", url)` call, not the swapped call the code
makes — the host equals the seed's host, the path is under the component
cap, the enqueue depth is at most `max_depth` when set, and the enqueued
count is strictly below `max_count` when set. -/
def claimAdmission (c : CrawlCfg) (s : Frontier) (url : List Char)
    (depth : Nat) : Prop :=
  can_fetch c.robots ['*'] url = true ∧
  urlNetloc url = urlNetloc c.seed_url ∧
  (∀ m, c.max_components = some m → numComponents (urlPath url) ≤ m) ∧
  (∀ m, c.max_depth = some m → depth ≤ m) ∧
  (∀ m, c.max_count = some m → s.count < m)

/-- The frontier operations a run performs: admission attempts
(`add_to_queue`, from the seed enqueue or a worker's link loop) and
dequeues (`self.queue.get()` in `Crawler.worker`). -/
inductive FrontierOp where
  | add (url : List Char) (depth : Nat)
  | deq
deriving DecidableEq

def applyOp (c : CrawlCfg) (s : Frontier) : FrontierOp → Frontier
  | .add url depth => (add_to_queue c s url depth).2
  | .deq => { s with queue := s.queue.tail }

def runOps (c : CrawlCfg) (s : Frontier) : List FrontierOp → Frontier
  | [] => s
  | op :: ops => runOps c (applyOp c s op) ops

/-- How many operations of `ops` are `add_to_queue` calls for `url`
returning `True`, starting from state `s`. -/
def admitCount (c : CrawlCfg) (s : Frontier) (ops : List FrontierOp)
    (url : List Char) : Nat :=
  match ops with
  | [] => 0
  | .add u d :: rest =>
    (if u = url ∧ (add_to_queue c s u d).1 = true then 1 else 0) +
      admitCount c (applyOp c s (.add u d)) rest url
  | .deq :: rest =>
    admitCount c (applyOp c s .deq) rest url

/-- How many operations of `ops` dequeue `url`, starting from state `s`. -/
def deqCount (c : CrawlCfg) (s : Frontier) (ops : List FrontierOp)
    (url : List Char) : Nat :=
  match ops with
  | [] => 0
  | .add u d :: rest =>
    deqCount c (applyOp c s (.add u d)) rest url
  | .deq :: rest =>
    (if s.queue.head?.map Prod.fst = some url then 1 else 0) +
      deqCount c (applyOp c s .deq) rest url

/-- Occurrences of `url` in the queue. -/
def occQ (url : List Char) (q : List (List Char × Nat)) : Nat :=
  (q.filter (fun p => p.1 = url)).length

/-- A link record extracted from a rendered page (`ExtractedLink` in
util/html.py). -/
structure ExtractedLink where
  url : List Char
  text : List Char
deriving DecidableEq

/-- Stripping the fragment: `href.split("#")[0]` (util/html.py line 112). -/
def stripFragment (s : List Char) : List Char :=
  s.takeWhile (· ≠ '#')

/-- The max-params policy of `extract_links` (util/html.py lines 122-127):
`param_split = href.split("?", 1); href = param_split[0]` and, when
`max_params > 0` and a query string was present, re-append the first
`max_params` `&`-separated parameters. -/
def paramStep (max_params : Option Nat) (href : List Char) : List Char :=
  match max_params with
  | none => href
  | some k =>
    let p0 := href.takeWhile (· ≠ '?')
    match afterFirst '?' href with
    | none => p0
    | some r =>
      if 0 < k then p0 ++ '?' :: intercalateChar '&' ((splitChar '&' r).take k)
      else p0

/-- Making relative links absolute: `if href.startswith("/"): href =
base_url + href` (util/html.py lines 103-104). -/
def resolveSlash (base_url href0 : List Char) : List Char :=
  if beginsWith ['/'] href0 then base_url ++ href0 else href0

/-- The per-candidate normalization of `extract_links`
(util/html.py lines 94-129): skip `#`-prefixed hrefs, resolve a leading `/`
against the site base, skip hrefs not passing the
`startswith("http") / startswith("https")` test, strip the fragment, apply
the max-params policy.  `none` means the candidate is skipped. -/
def normalizeOne (base_url : List Char) (max_params : Option Nat)
    (href0 : List Char) : Option (List Char) :=
  if beginsWith ['#'] href0 then none
  else if ¬ (beginsWith ['h', 't', 't', 'p'] (resolveSlash base_url href0) ||
          beginsWith ['h', 't', 't', 'p', 's'] (resolveSlash base_url href0)) then
    none
  else some (paramStep max_params (stripFragment (resolveSlash base_url href0)))

/-- The normalization stage of `extract_links` applied to the mined raw
candidate list (util/html.py lines 94-130).  The mining stages (anchor tags
via BeautifulSoup and the Drupal JSON blob) produce `raw_links`; every
output of `extract_links` is `cleanLinks` of some such raw list. -/
def cleanLinks (base_url : List Char) (max_params : Option Nat)
    (raw_links : List ExtractedLink) : List ExtractedLink :=
  raw_links.filterMap (fun l =>
    (normalizeOne base_url max_params l.url).map (fun u => ⟨u, l.text⟩))

/-- The claim-side reading of "the URL's scheme is http or https". -/
def schemeIsHttp (url : List Char) : Prop :=
  urlScheme url = ['h', 't', 't', 'p'] ∨ urlScheme url = ['h', 't', 't', 'p', 's']

/-- Model of `LinkKeywords` (ai/types.py): a link together with the keyword scores the
classifier assigned.  The Python `dict[str, float]` is an insertion-ordered
association list; scores are modelled as `ℚ`. -/
structure LinkKeywords where
  url : String
  text : String
  keywords : List (String × ℚ)
deriving DecidableEq

/-- The fixed keyword vocabulary `KEYWORDS` (ai/inspect.py lines 13-36), in
source order.  The source lists the key `"proposal"` twice with the same
weight 1.0; the Python dict keeps a single entry. -/
def KEYWORDS : List (String × ℚ) :=
  [("department", 7/10), ("contact", 1), ("ACFR", 1), ("budget", 1),
   ("planning", 1), ("officer", 9/10), ("director", 9/10), ("finance", 1),
   ("elected", 7/10), ("minutes", 1), ("bid", 8/10), ("purchasing", 1),
   ("proposal", 1), ("RFP", 1), ("contract", 1), ("funding", 1),
   ("report", 7/10), ("grant", 7/10), ("improvement", 8/10), ("project", 8/10),
   ("initiative", 8/10)]

/-- First-match lookup in an association list (Python `d[k]` / `k in d`). -/
def lookupKW (k : String) : List (String × ℚ) → Option ℚ
  | [] => none
  | (k', w) :: rest => if k' = k then some w else lookupKW k rest

/-- Stable insertion into a score-descending list of (keyword, weight)
pairs: the inserted element — which originally precedes everything in the
list (the sort folds from the right) — passes only strictly greater weights
and lands before equal ones, so ties keep their original order, matching
Python's stable `list.sort(key=..., reverse=True)`. -/
def insertDescP (x : String × ℚ) : List (String × ℚ) → List (String × ℚ)
  | [] => [x]
  | y :: ys => if x.2 < y.2 then y :: insertDescP x ys else x :: y :: ys

/-- Stable sort by descending weight, modelling
`kw_sorted.sort(key=lambda x: x[1], reverse=True)` (crawl.py line 331). -/
def sortDescP : List (String × ℚ) → List (String × ℚ)
  | [] => []
  | x :: xs => insertDescP x (sortDescP xs)

/-- Descending insertion on bare weights (for the spec-side formula). -/
def insertDescQ (x : ℚ) : List ℚ → List ℚ
  | [] => [x]
  | y :: ys => if x < y then y :: insertDescQ x ys else x :: y :: ys

/-- Descending sort on bare weights (for the spec-side formula). -/
def sortDescQ : List ℚ → List ℚ
  | [] => []
  | x :: xs => insertDescQ x (sortDescQ xs)

/-- The sum `Σ_j scores_j / 2^(i+j)`: the structural form of the aggregation loop. -/
def totalFrom (i : ℕ) : List ℚ → ℚ
  | [] => 0
  | q :: qs => q / 2 ^ i + totalFrom (i + 1) qs

/-- The aggregation loop of `Crawler.keyword_ranking` (crawl.py lines
340-342): `for i, score in enumerate(scores): total_score += score / (2**i)`. -/
def totalLoop (scores : List ℚ) : ℚ :=
  (scores.enum.foldl (fun acc p => acc + p.2 / 2 ^ p.1) 0)

/-- The per-keyword weighting loop of `Crawler.keyword_ranking` (crawl.py
lines 319-328): in-vocabulary keywords are weighted by `KEYWORDS[k]`,
out-of-vocabulary keywords by `0.25`. -/
def weightKeywords (kws : List (String × ℚ)) : List (String × ℚ) :=
  kws.map (fun p =>
    match lookupKW p.1 KEYWORDS with
    | some w => (p.1, p.2 * w)
    | none => (p.1, p.2 * (1/4)))

/-- Model of `Crawler.keyword_ranking` (crawl.py lines 316-344): weight the
keywords, sort by descending weight, build the `;`-delimited keyword string,
and aggregate the sorted weights with the halving series. -/
def keyword_ranking (kw_link : LinkKeywords) : String × ℚ :=
  let kw_sorted := sortDescP (weightKeywords kw_link.keywords)
  let kw_str := ";" ++ String.intercalate ";" (kw_sorted.map Prod.fst) ++ ";"
  (kw_str, totalLoop (kw_sorted.map Prod.snd))

/-- The aggregation formula exactly as the spec words it (spec §4.5): sort
the per-keyword weights descending and compute `total = Σ_i weight_i / 2^i`. -/
def rankingSpecTotal (kw_link : LinkKeywords) : ℚ :=
  totalFrom 0 (sortDescQ ((weightKeywords kw_link.keywords).map Prod.snd))

/-- JSON values, the result of `json.loads` on the classifier response. -/
inductive Jval where
  | jnull
  | jbool (b : Bool)
  | jnum (q : ℚ)
  | jstr (s : String)
  | jarr (items : List Jval)
  | jobj (fields : List (String × Jval))

/-- First-match field lookup in a JSON object. -/
def getField (k : String) : List (String × Jval) → Option Jval
  | [] => none
  | (k', v) :: rest => if k' = k then some v else getField k rest

/-- All values of a JSON object coerced to numbers (`dict[str, float]`);
fails if any value is not a number. -/
def allNums : List (String × Jval) → Option (List (String × ℚ))
  | [] => some []
  | (k, .jnum q) :: rest => (allNums rest).map (fun t => (k, q) :: t)
  | (_, _) :: _ => none

/-- Model of `LinkKeywords.model_validate(item)` (ai/inspect.py line 125):
the item must carry a string `url`, a string `text` and an all-numeric
`keywords` object; `none` models the raised `ValidationError`. -/
def coerceLink : Jval → Option LinkKeywords
  | .jobj fields =>
    match getField "url" fields, getField "text" fields,
          getField "keywords" fields with
    | some (.jstr u), some (.jstr t), some (.jobj kws) =>
      (allNums kws).map (fun ks => ⟨u, t, ks⟩)
    | _, _, _ => none
  | _ => none

/-- The validation loop of `parse_result` (ai/inspect.py lines 123-127): the
first item that fails `model_validate` raises, aborting the whole list. -/
def coerceAll : List Jval → Option (List LinkKeywords)
  | [] => some []
  | j :: js =>
    match coerceLink j with
    | none => none
    | some k => (coerceAll js).map (fun t => k :: t)

/-- Model of `parse_result` (ai/inspect.py lines 115-127): a single JSON
object is wrapped in a singleton list; a JSON list is validated item by item
with the first failure aborting; any other JSON value fails (iterating it
raises).  `none` models a raised exception. -/
def parse_result (j : Jval) : Option (List LinkKeywords) :=
  match j with
  | .jobj fields => (coerceLink (.jobj fields)).map (fun k => [k])
  | .jarr items => coerceAll items
  | _ => none

/-- A row of the `page` table (db/schema.py) as the upsert/update claims
see it: `crawl_time` is a count of seconds (these operations only write,
compare nothing, and `DATETIME(..., '-1 second')` subtracts one second).
The stale reap, which COMPARES stored timestamps as raw TEXT, is modelled
separately on `StoredPageRow`.  The surrogate `id` is omitted: rows are
keyed by the unique `(site_id, url)` pair, so the by-id updates of
db/page.py hit exactly the rows matching that key. -/
structure PageRow where
  site_id : Nat
  url : String
  hash : String
  crawl_time : Int
  error : Option String
deriving DecidableEq

/-- Whether `r` matches the `(site_id, url)` conflict key of `p`. -/
def pageKeyB (site : Nat) (url : String) (r : PageRow) : Bool :=
  r.site_id == site && r.url == url

/-- Model of `upsert_page` (db/page.py lines 7-33): insert the row, or on a
`(site_id, url)` conflict update only `hash` and `crawl_time` — the `error`
column is not in the `DO UPDATE SET` list and keeps its stored value. -/
def upsert_page (db : List PageRow) (p : PageRow) : List PageRow :=
  if db.any (pageKeyB p.site_id p.url) then
    db.map (fun r =>
      if pageKeyB p.site_id p.url r then
        { r with hash := p.hash, crawl_time := p.crawl_time }
      else r)
  else
    db ++ [p]

/-- Model of `update_page_hash` (db/page.py lines 36-47). -/
def update_page_hash (db : List PageRow) (site : Nat) (url : String)
    (hash : String) : List PageRow :=
  db.map (fun r => if pageKeyB site url r then { r with hash := hash } else r)

/-- Model of `update_page_error` (db/page.py lines 50-62): record the error
and backdate `crawl_time` by one second via
`DATETIME(crawl_time, '-1 second')`.  In seconds the new value is exactly
one less; note that SQLite's `DATETIME` additionally REWRITES the stored
text into the space-separated `YYYY-MM-DD HH:MM:SS` format, which matters
only to the TEXT comparison of the reap and is modelled there
(`delete_stale_pages` on `StoredPageRow`). -/
def update_page_error (db : List PageRow) (site : Nat) (url : String)
    (error : String) : List PageRow :=
  db.map (fun r =>
    if pageKeyB site url r then
      { r with error := some error, crawl_time := r.crawl_time - 1 }
    else r)

/-- A row of the `page` table as stored on disk: the `crawl_time` column is
TEXT (SQLite `TIMESTAMP` has no native datetime type) holding either
Python's `isoformat()` output (`YYYY-MM-DDTHH:MM:SS.ffffff`, written by the
upserts) or SQLite `DATETIME` output (`YYYY-MM-DD HH:MM:SS`, written by
`update_page_error`). -/
structure StoredPageRow where
  site_id : Nat
  url : String
  hash : String
  crawl_time : List Char
  error : Option String
deriving DecidableEq

/-- A row of the `link` table as stored on disk, with the fields the reap
touches. -/
structure StoredLinkRow where
  site_id : Nat
  page_id : Nat
  url : String
  crawl_time : List Char
deriving DecidableEq

/-- SQLite's comparison of two TEXT values with the default BINARY
collation: a byte-wise `memcmp` (codepoint order on the ASCII timestamps
involved).  A proper nonempty extension is greater; at the first differing
position the smaller codepoint wins. -/
def textLt : List Char → List Char → Bool
  | _, [] => false
  | [], _ :: _ => true
  | a :: as, b :: bs => a.toNat < b.toNat || (a = b && textLt as bs)

/-- Model of `delete_stale_pages` (db/page.py lines 115-117):
`DELETE FROM page WHERE crawl_time < ?` — the surviving rows.  The SQL has
no `site_id` filter, and since `crawl_time` is TEXT the `<` is the
byte-wise TEXT comparison, not a chronological one. -/
def delete_stale_pages (db : List StoredPageRow) (before_time : List Char) :
    List StoredPageRow :=
  db.filter (fun r => !(textLt r.crawl_time before_time))

/-- Model of `delete_stale_links` (db/link.py lines 126-128). -/
def delete_stale_links (db : List StoredLinkRow) (before_time : List Char) :
    List StoredLinkRow :=
  db.filter (fun r => !(textLt r.crawl_time before_time))

/-- The value of one decimal digit character. -/
def digitVal (c : Char) : Option Nat :=
  if c.isDigit then some (c.toNat - 48) else none

/-- Decimal digits accumulated most-significant-first onto `acc`
(`none` on any non-digit). -/
def readDigitsAux (acc : Nat) : List Char → Option Nat
  | [] => some acc
  | c :: cs =>
    match digitVal c with
    | some d => readDigitsAux (10 * acc + d) cs
    | none => none

/-- A run of decimal digits as a number (`none` on any non-digit). -/
def readDigits (cs : List Char) : Option Nat :=
  readDigitsAux 0 cs

/-- The claim-side CHRONOLOGICAL reading of a stored timestamp, accepting
both the `T`-separated isoformat and the space-separated `DATETIME` form:
a strictly monotone key in (year, month, day, hour, minute, second,
microsecond).  This is the order the claim's words "crawl_time is strictly
less than the threshold" denote; the program instead compares the raw
TEXT. -/
def chronKey (s : List Char) : Option Nat :=
  if s.length < 19 then none
  else
    (readDigits (s.take 4)).bind fun y =>
    (readDigits ((s.drop 5).take 2)).bind fun mo =>
    (readDigits ((s.drop 8).take 2)).bind fun d =>
    (readDigits ((s.drop 11).take 2)).bind fun h =>
    (readDigits ((s.drop 14).take 2)).bind fun mi =>
    (readDigits ((s.drop 17).take 2)).bind fun sec =>
    let base := ((((y * 13 + mo) * 32 + d) * 24 + h) * 60 + mi) * 60 + sec
    let us :=
      match s.drop 19 with
      | '.' :: frac => (readDigits (frac.take 6)).getD 0
      | _ => 0
    some (base * 1000000 + us)

/-- The three ways `Crawler.process_url` (crawl.py lines 210-283) touches the
page table for a URL it does not skip:
* `renderFail e` — rendering raised; the page is upserted with an empty hash,
  the backdated timestamp `T - 1` and the error message, and the exception
  re-raised (lines 230-244);
* `okRender h none` — rendering succeeded and link processing (or the skip on
  an unchanged hash) succeeded; the page is upserted with an empty hash and
  timestamp `T`, then `update_page_hash` stores `h` (lines 249-274);
* `okRender h (some e)` — rendering succeeded but link processing raised;
  after the same upsert, `update_page_error` records `e` and backdates the
  timestamp (lines 275-278). -/
inductive UrlOutcome where
  | renderFail (e : String)
  | okRender (h : String) (linkErr : Option String)
deriving DecidableEq

/-- The page-table effect of `Crawler.process_url` on one URL. -/
def processUrlDb (site : Nat) (T : Int) (db : List PageRow) (url : String) :
    UrlOutcome → List PageRow
  | .renderFail e => upsert_page db ⟨site, url, "", T - 1, some e⟩
  | .okRender h none =>
    update_page_hash (upsert_page db ⟨site, url, "", T, none⟩) site url h
  | .okRender _ (some e) =>
    update_page_error (upsert_page db ⟨site, url, "", T, none⟩) site url e

/-- The page-table effect of a whole run: each processed URL contributes one
`processUrlDb` step. -/
def runDb (site : Nat) (T : Int) (db : List PageRow) :
    List (String × UrlOutcome) → List PageRow
  | [] => db
  | (url, o) :: rest => runDb site T (processUrlDb site T db url o) rest

/-- The rows of `db` holding site `site` and URL `url`. -/
def keyRows (site : Nat) (url : String) (db : List PageRow) : List PageRow :=
  db.filter (pageKeyB site url)

/-- A concrete configuration whose seed has a three-component path while the
component cap is 1. -/
def cexCfg : CrawlCfg where
  seed_url := "http://ex.com/a/b/c".toList
  robots := demoRobots
  max_count := none
  max_depth := none
  max_components := some 1

/-- A concrete configuration whose robots file disallows `/private` and
which sets no caps, so `allowed_to_crawl` is decided by the robots gate and
the host check alone. -/
def robotsCfg : CrawlCfg where
  seed_url := "http://ex.com".toList
  robots := demoRobots
  max_count := none
  max_depth := none
  max_components := none

/-- A concrete configuration with all caps set to positive values. -/
def capsCfg : CrawlCfg where
  seed_url := "http://ex.com".toList
  robots := demoRobots
  max_count := some 10
  max_depth := some 5
  max_components := some 10

/-- A concrete configuration with no caps. -/
def freeCfg : CrawlCfg where
  seed_url := "http://e".toList
  robots := demoRobots
  max_count := none
  max_depth := none
  max_components := none

end Aiplay

namespace Aiplay

theorem splitChar_ne_nil (c : Char) (s : List Char) : splitChar c s ≠ [] := by
  cases s with
  | nil => simp [splitChar]
  | cons x xs =>
    simp only [splitChar]
    split
    · simp
    · cases h : splitChar c xs <;> simp

theorem not_mem_of_mem_splitChar {c : Char} {s part : List Char}
    (hp : part ∈ splitChar c s) : c ∉ part := by
  induction s generalizing part with
  | nil =>
    simp [splitChar] at hp
    subst hp; simp
  | cons x xs ih =>
    simp only [splitChar] at hp
    split at hp
    · rcases List.mem_cons.1 hp with h | h
      · subst h; simp
      · exact ih h
    · rename_i hxc
      rcases hsp : splitChar c xs with _ | ⟨h, t⟩
      · exact absurd hsp (splitChar_ne_nil c xs)
      · rw [hsp] at hp
        rcases List.mem_cons.1 hp with h' | h'
        · subst h'
          intro hmem
          rcases List.mem_cons.1 hmem with h'' | h''
          · exact hxc h''.symm
          · have : h ∈ splitChar c xs := by rw [hsp]; exact List.mem_cons_self _ _
            exact ih this h''
        · exact ih (by rw [hsp]; exact List.mem_cons_of_mem _ h')

theorem subset_of_mem_splitChar {c : Char} {s part : List Char}
    (hp : part ∈ splitChar c s) : ∀ x ∈ part, x ∈ s := by
  induction s generalizing part with
  | nil =>
    simp [splitChar] at hp
    subst hp; simp
  | cons x xs ih =>
    simp only [splitChar] at hp
    split at hp
    · rcases List.mem_cons.1 hp with h | h
      · subst h; simp
      · intro y hy
        exact List.mem_cons_of_mem _ (ih h y hy)
    · rcases hsp : splitChar c xs with _ | ⟨h, t⟩
      · exact absurd hsp (splitChar_ne_nil c xs)
      · rw [hsp] at hp
        rcases List.mem_cons.1 hp with h' | h'
        · subst h'
          intro y hy
          rcases List.mem_cons.1 hy with h'' | h''
          · subst h''; simp
          · have : h ∈ splitChar c xs := by rw [hsp]; exact List.mem_cons_self _ _
            exact List.mem_cons_of_mem _ (ih this y h'')
        · intro y hy
          have hm : part ∈ splitChar c xs := by
            rw [hsp]; exact List.mem_cons_of_mem _ h'
          exact List.mem_cons_of_mem _ (ih hm y hy)

theorem intercalateChar_splitChar (c : Char) (s : List Char) :
    intercalateChar c (splitChar c s) = s := by
  induction s with
  | nil => simp [splitChar, intercalateChar]
  | cons x xs ih =>
    simp only [splitChar]
    split
    · rename_i hxc
      rcases hsp : splitChar c xs with _ | ⟨h, t⟩
      · exact absurd hsp (splitChar_ne_nil c xs)
      · rw [hsp] at ih
        simp only [intercalateChar]
        rw [ih, hxc]
        simp
    · rcases hsp : splitChar c xs with _ | ⟨h, t⟩
      · exact absurd hsp (splitChar_ne_nil c xs)
      · rw [hsp] at ih
        cases t with
        | nil => simpa [intercalateChar] using congrArg (x :: ·) ih
        | cons t0 ts =>
          simp only [intercalateChar] at ih ⊢
          rw [List.cons_append, ih]

theorem splitChar_of_not_mem {c : Char} {s : List Char} (h : c ∉ s) :
    splitChar c s = [s] := by
  induction s with
  | nil => rfl
  | cons x xs ih =>
    have hx : ¬ x = c := fun hxc => h (by rw [hxc]; exact List.mem_cons_self _ _)
    have hxs : c ∉ xs := fun hm => h (List.mem_cons_of_mem _ hm)
    simp only [splitChar, hx, if_false, ih hxs]

theorem splitChar_append_cons {c : Char} {p : List Char} (q : List Char)
    (h : c ∉ p) : splitChar c (p ++ c :: q) = p :: splitChar c q := by
  induction p with
  | nil => simp [splitChar]
  | cons x xs ih =>
    have hx : ¬ x = c := fun hxc => h (by rw [hxc]; exact List.mem_cons_self _ _)
    have hxs : c ∉ xs := fun hm => h (List.mem_cons_of_mem _ hm)
    rw [List.cons_append]
    show splitChar c (x :: (xs ++ c :: q)) = (x :: xs) :: splitChar c q
    simp only [splitChar, hx, if_false]
    rw [ih hxs]

theorem splitChar_intercalateChar {c : Char} {parts : List (List Char)}
    (hne : parts ≠ []) (hc : ∀ p ∈ parts, c ∉ p) :
    splitChar c (intercalateChar c parts) = parts := by
  induction parts with
  | nil => exact absurd rfl hne
  | cons p ps ih =>
    cases ps with
    | nil =>
      simp only [intercalateChar]
      exact splitChar_of_not_mem (hc p (List.mem_cons_self _ _))
    | cons p1 ps1 =>
      simp only [intercalateChar]
      rw [splitChar_append_cons _ (hc p (List.mem_cons_self _ _))]
      have := ih (by simp) (fun q hq => hc q (List.mem_cons_of_mem _ hq))
      simp only [intercalateChar] at this
      rw [this]

theorem afterFirst_eq_none {c : Char} {s : List Char} :
    afterFirst c s = none ↔ c ∉ s := by
  induction s with
  | nil => simp [afterFirst]
  | cons x xs ih =>
    simp only [afterFirst]
    split
    · rename_i hxc
      subst hxc
      simp
    · rename_i hxc
      rw [ih]
      constructor
      · intro h hm
        rcases List.mem_cons.1 hm with h' | h'
        · exact hxc h'.symm
        · exact h h'
      · intro h hm
        exact h (List.mem_cons_of_mem _ hm)

theorem mem_of_afterFirst {c : Char} {s r : List Char}
    (h : afterFirst c s = some r) : ∀ x ∈ r, x ∈ s := by
  induction s with
  | nil => simp [afterFirst] at h
  | cons x xs ih =>
    simp only [afterFirst] at h
    split at h
    · cases h
      intro y hy
      exact List.mem_cons_of_mem _ hy
    · intro y hy
      exact List.mem_cons_of_mem _ (ih h y hy)

theorem afterFirst_append_cons {c : Char} {p : List Char} (q : List Char)
    (h : c ∉ p) : afterFirst c (p ++ c :: q) = some q := by
  induction p with
  | nil => simp [afterFirst]
  | cons x xs ih =>
    have hx : ¬ x = c := fun hxc => h (by rw [hxc]; exact List.mem_cons_self _ _)
    have hxs : c ∉ xs := fun hm => h (List.mem_cons_of_mem _ hm)
    rw [List.cons_append]
    show afterFirst c (x :: (xs ++ c :: q)) = some q
    simp only [afterFirst, hx, if_false]
    exact ih hxs

theorem takeWhileNe_append_cons {c : Char} {p : List Char} (q : List Char)
    (h : c ∉ p) : (p ++ c :: q).takeWhile (· ≠ c) = p := by
  induction p with
  | nil => simp [List.takeWhile]
  | cons x xs ih =>
    have hx : ¬ x = c := fun hxc => h (by rw [hxc]; exact List.mem_cons_self _ _)
    have hxs : c ∉ xs := fun hm => h (List.mem_cons_of_mem _ hm)
    rw [List.cons_append, List.takeWhile_cons, if_pos (by simp [hx]), ih hxs]

theorem takeWhileNe_eq_self {c : Char} {s : List Char} (h : c ∉ s) :
    s.takeWhile (· ≠ c) = s := by
  induction s with
  | nil => rfl
  | cons x xs ih =>
    have hx : ¬ x = c := fun hxc => h (by rw [hxc]; exact List.mem_cons_self _ _)
    have hxs : c ∉ xs := fun hm => h (List.mem_cons_of_mem _ hm)
    rw [List.takeWhile_cons, if_pos (by simp [hx]), ih hxs]

theorem mem_takeWhileNe {c x : Char} {s : List Char}
    (h : x ∈ s.takeWhile (· ≠ c)) : x ∈ s ∧ x ≠ c := by
  induction s with
  | nil => simp [List.takeWhile] at h
  | cons y ys ih =>
    rw [List.takeWhile_cons] at h
    by_cases hy : y = c
    · simp [hy] at h
    · have h' : x ∈ y :: ys.takeWhile (· ≠ c) := by
        simpa [hy] using h
      rcases List.mem_cons.1 h' with h'' | h''
      · subst h''
        exact ⟨List.mem_cons_self _ _, hy⟩
      · obtain ⟨h1, h2⟩ := ih h''
        exact ⟨List.mem_cons_of_mem _ h1, h2⟩

theorem beginsWith_append : ∀ {p a : List Char} (b : List Char),
    beginsWith p a = true → beginsWith p (a ++ b) = true
  | [], _, _, _ => rfl
  | _ :: _, [], _, h => by simp [beginsWith] at h
  | x :: xs, y :: ys, b, h => by
    simp only [beginsWith, Bool.and_eq_true, decide_eq_true_eq] at h
    simp only [List.cons_append, beginsWith, Bool.and_eq_true, decide_eq_true_eq]
    exact ⟨h.1, beginsWith_append b h.2⟩

theorem beginsWith_takeWhile {f : Char → Bool} :
    ∀ {p s : List Char}, beginsWith p s = true → (∀ a ∈ p, f a = true) →
      beginsWith p (s.takeWhile f) = true
  | [], _, _, _ => rfl
  | _ :: _, [], h, _ => by simp [beginsWith] at h
  | x :: xs, y :: ys, h, hp => by
    simp only [beginsWith, Bool.and_eq_true, decide_eq_true_eq] at h
    obtain ⟨hxy, hrest⟩ := h
    have hfy : f y = true := by
      rw [← hxy]; exact hp x (List.mem_cons_self _ _)
    rw [List.takeWhile_cons, hfy]
    simp only [if_true, beginsWith, Bool.and_eq_true, decide_eq_true_eq]
    exact ⟨hxy, beginsWith_takeWhile hrest (fun a ha => hp a (List.mem_cons_of_mem _ ha))⟩

theorem beginsWith_single_false {a b : Char} {as s : List Char}
    (h : beginsWith (a :: as) s = true) (hne : b ≠ a) :
    beginsWith [b] s = false := by
  cases s with
  | nil => simp [beginsWith] at h
  | cons y ys =>
    simp only [beginsWith, Bool.and_eq_true, decide_eq_true_eq] at h
    simp [beginsWith, h.1 ▸ hne]

theorem pageKeyB_iff {site : Nat} {url : String} {r : PageRow} :
    pageKeyB site url r = true ↔ r.site_id = site ∧ r.url = url := by
  simp [pageKeyB]

/-- C10: on a `(site_id, url)` conflict, `upsert_page` updates only the
`hash` and `crawl_time` columns: the pre-existing row survives with its
stored `error` untouched, and the result does not depend on the `error`
value the passed `Page` carries.  In particular the render-failure path's
upsert does not record its error message on a pre-existing page row, and a
later successful crawl does not clear a previously recorded error. -/
theorem upsert_page_conflict_frame (db : List PageRow) (p r0 : PageRow)
    (e' : Option String) (h0 : r0 ∈ db) (hsite : r0.site_id = p.site_id)
    (hurl : r0.url = p.url) :
    { r0 with hash := p.hash, crawl_time := p.crawl_time } ∈
        upsert_page db { p with error := e' } ∧
    upsert_page db { p with error := e' } = upsert_page db p := by
  have hkey : pageKeyB p.site_id p.url r0 = true :=
    pageKeyB_iff.2 ⟨hsite, hurl⟩
  have hany : db.any (pageKeyB p.site_id p.url) = true :=
    List.any_eq_true.2 ⟨r0, h0, hkey⟩
  constructor
  · show _ ∈ upsert_page db { p with error := e' }
    simp only [upsert_page, hany, if_true]
    refine List.mem_map.2 ⟨r0, h0, ?_⟩
    rw [if_pos hkey]
  · simp only [upsert_page, hany, if_true]

theorem upsert_page_conflict_frame_witness :
    ({ site_id := 1, url := "u", hash := "h1", crawl_time := 10,
       error := some "e0" } : PageRow) ∈
      upsert_page [⟨1, "u", "h0", 5, some "e0"⟩]
        { site_id := 1, url := "u", hash := "h1", crawl_time := 10,
          error := some "fresh" } ∧
    upsert_page [⟨1, "u", "h0", 5, some "e0"⟩]
        { site_id := 1, url := "u", hash := "h1", crawl_time := 10,
          error := some "fresh" } =
      upsert_page [⟨1, "u", "h0", 5, some "e0"⟩] ⟨1, "u", "h1", 10, none⟩ :=
  upsert_page_conflict_frame [⟨1, "u", "h0", 5, some "e0"⟩]
    ⟨1, "u", "h1", 10, none⟩ ⟨1, "u", "h0", 5, some "e0"⟩ (some "fresh")
    (List.mem_singleton.2 rfl) rfl rfl

/-- C4 counterexample, against a run of site 1 at
`run_start = 2026-10-12T12:00:00.000001` with the default
`stale_hours = 24`, so the threshold string is
`2026-10-11T12:00:00.000001`.  Two defects of the claim as stated:
(1) the reap is not scoped to the crawled site — the old row of site 2 is
deleted too (`DELETE FROM page WHERE crawl_time < ?` has no `site_id`
filter); and (2) a row may be deleted although its `crawl_time` is
chronologically at or above the threshold: the error row stored by
`update_page_error` as `2026-10-11 12:59:59` (SQLite `DATETIME`'s
space-separated format) denotes a LATER instant than the threshold, yet the
byte-wise TEXT comparison puts the space (0x20) before `T` (0x54) and reaps
it. -/
theorem delete_stale_text_order_cex :
    (chronKey "2026-10-11T12:00:00.000001".toList).getD 0 <
      (chronKey "2026-10-11 12:59:59".toList).getD 0 ∧
    (chronKey "2026-10-11 12:59:59".toList).isSome = true ∧
    (chronKey "2026-10-11T12:00:00.000001".toList).isSome = true ∧
    (⟨1, "u", "", "2026-10-11 12:59:59".toList, some "boom"⟩ : StoredPageRow) ∉
      delete_stale_pages
        [⟨1, "u", "", "2026-10-11 12:59:59".toList, some "boom"⟩,
         ⟨2, "v", "h", "2020-01-01T00:00:00.000000".toList, none⟩]
        "2026-10-11T12:00:00.000001".toList ∧
    (⟨2, "v", "h", "2020-01-01T00:00:00.000000".toList, none⟩ : StoredPageRow).site_id ≠ 1 ∧
    (⟨2, "v", "h", "2020-01-01T00:00:00.000000".toList, none⟩ : StoredPageRow) ∉
      delete_stale_pages
        [⟨1, "u", "", "2026-10-11 12:59:59".toList, some "boom"⟩,
         ⟨2, "v", "h", "2020-01-01T00:00:00.000000".toList, none⟩]
        "2026-10-11T12:00:00.000001".toList := by
  decide

/-- C4 (amended): the end-of-run stale reap deletes exactly the page and
link rows — of any site in the database, not only the crawled site's —
whose stored `crawl_time` TEXT compares byte-wise below the threshold
string, and no others.  Because thresholds are written in Python's
`T`-separated isoformat while `update_page_error` rewrites timestamps into
SQLite's space-separated `DATETIME` format, this TEXT order disagrees with
chronological order: an error-backdated row whose date equals the
threshold's date sorts below it and is reaped even when chronologically
newer, so the deleted set is not "precisely rows from prior crawls not
re-observed this run". -/
theorem delete_stale_text_exact (pdb : List StoredPageRow)
    (ldb : List StoredLinkRow) (thr : List Char) :
    (∀ r : StoredPageRow, r ∈ delete_stale_pages pdb thr ↔
      r ∈ pdb ∧ textLt r.crawl_time thr = false) ∧
    (∀ r : StoredLinkRow, r ∈ delete_stale_links ldb thr ↔
      r ∈ ldb ∧ textLt r.crawl_time thr = false) := by
  constructor
  · intro r
    simp [delete_stale_pages, List.mem_filter]
  · intro r
    simp [delete_stale_links, List.mem_filter]

/-- C9 counterexample: with one coercible item and one uncoercible item in
the JSON list, `parse_result` does not discard the bad item and keep the
good one; `model_validate` raises on the bad item and the whole validation
fails. -/
theorem parse_result_mixed_cex :
    coerceLink (.jobj [("url", .jstr "https://a"), ("text", .jstr "T"),
        ("keywords", .jobj [("budget", .jnum 1)])]) =
      some ⟨"https://a", "T", [("budget", 1)]⟩ ∧
    coerceLink (.jnum 3) = none ∧
    parse_result (.jarr [.jobj [("url", .jstr "https://a"),
        ("text", .jstr "T"), ("keywords", .jobj [("budget", .jnum 1)])],
        .jnum 3]) = none := by
  refine ⟨by decide, rfl, by decide⟩

/-- C9 (amended): when the classifier response parses to a JSON list, the
validation pipeline returns the coerced items only when every item can be
coerced; as soon as any item fails coercion, the whole validation fails
(the `ValidationError` propagates) and nothing is returned. -/
theorem parse_result_all_or_nothing (items : List Jval) :
    parse_result (.jarr items) =
      if items.all (fun j => (coerceLink j).isSome) then
        some (items.filterMap coerceLink)
      else none := by
  simp only [parse_result]
  induction items with
  | nil => simp [coerceAll]
  | cons j js ih =>
    simp only [coerceAll, List.all_cons, List.filterMap_cons]
    cases hj : coerceLink j with
    | none => simp [hj]
    | some k =>
      rw [ih]
      cases hall : js.all (fun j => (coerceLink j).isSome) with
      | true => simp [hj]
      | false => simp [hj]

theorem foldl_enumFrom_totalFrom (l : List ℚ) :
    ∀ (i : ℕ) (acc : ℚ),
      ((List.enumFrom i l).foldl (fun acc p => acc + p.2 / 2 ^ p.1) acc) =
        acc + totalFrom i l := by
  induction l with
  | nil => intro i acc; simp [totalFrom]
  | cons q qs ih =>
    intro i acc
    simp only [List.enumFrom, List.foldl_cons, totalFrom]
    rw [ih (i + 1) (acc + q / 2 ^ i)]
    ring

theorem totalLoop_eq_totalFrom (l : List ℚ) : totalLoop l = totalFrom 0 l := by
  simp only [totalLoop, List.enum]
  rw [foldl_enumFrom_totalFrom l 0 0, zero_add]

theorem map_snd_insertDescP (x : String × ℚ) (l : List (String × ℚ)) :
    (insertDescP x l).map Prod.snd = insertDescQ x.2 (l.map Prod.snd) := by
  induction l with
  | nil => rfl
  | cons y ys ih =>
    simp only [insertDescP, List.map_cons, insertDescQ]
    split
    · rw [List.map_cons, ih]
    · simp

theorem map_snd_sortDescP (l : List (String × ℚ)) :
    (sortDescP l).map Prod.snd = sortDescQ (l.map Prod.snd) := by
  induction l with
  | nil => rfl
  | cons x xs ih =>
    simp only [sortDescP, List.map_cons, sortDescQ]
    rw [map_snd_insertDescP, ih]

theorem mem_insertDescQ {x y : ℚ} {l : List ℚ}
    (h : x ∈ insertDescQ y l) : x = y ∨ x ∈ l := by
  induction l with
  | nil => simpa [insertDescQ] using h
  | cons z zs ih =>
    simp only [insertDescQ] at h
    split at h
    · rcases List.mem_cons.1 h with h' | h'
      · exact Or.inr (h' ▸ List.mem_cons_self _ _)
      · rcases ih h' with h'' | h''
        · exact Or.inl h''
        · exact Or.inr (List.mem_cons_of_mem _ h'')
    · rcases List.mem_cons.1 h with h' | h'
      · exact Or.inl h'
      · exact Or.inr h'

theorem mem_sortDescQ {x : ℚ} {l : List ℚ} (h : x ∈ sortDescQ l) : x ∈ l := by
  induction l with
  | nil => simp [sortDescQ] at h
  | cons y ys ih =>
    simp only [sortDescQ] at h
    rcases mem_insertDescQ h with h' | h'
    · exact h' ▸ List.mem_cons_self _ _
    · exact List.mem_cons_of_mem _ (ih h')

theorem lookupKW_mem {k : String} {w : ℚ} :
    ∀ {l : List (String × ℚ)}, lookupKW k l = some w → (k, w) ∈ l := by
  intro l
  induction l with
  | nil => intro h; simp [lookupKW] at h
  | cons p ps ih =>
    intro h
    simp only [lookupKW] at h
    split at h
    · rename_i heq
      cases h
      rcases p with ⟨k', w'⟩
      simp only at heq
      rw [← heq]
      exact List.mem_cons_self _ _
    · exact List.mem_cons_of_mem _ (ih h)

theorem KEYWORDS_weights_bounded : ∀ p ∈ KEYWORDS, 0 ≤ p.2 ∧ p.2 ≤ 1 := by
  intro p hp
  fin_cases hp <;> norm_num

theorem totalFrom_nonneg {l : List ℚ} (h : ∀ x ∈ l, 0 ≤ x) :
    ∀ i : ℕ, 0 ≤ totalFrom i l := by
  induction l with
  | nil => intro i; simp [totalFrom]
  | cons q qs ih =>
    intro i
    have hq : 0 ≤ q := h q (List.mem_cons_self _ _)
    have hqs := ih (fun x hx => h x (List.mem_cons_of_mem _ hx)) (i + 1)
    have : (0 : ℚ) ≤ q / 2 ^ i := by positivity
    simpa [totalFrom] using add_nonneg this hqs

theorem totalFrom_lt {l : List ℚ} (h : ∀ x ∈ l, x ≤ 1) :
    ∀ i : ℕ, totalFrom i l < 2 / 2 ^ i := by
  induction l with
  | nil => intro i; simp only [totalFrom]; positivity
  | cons q qs ih =>
    intro i
    have hq : q ≤ 1 := h q (List.mem_cons_self _ _)
    have hqs := ih (fun x hx => h x (List.mem_cons_of_mem _ hx)) (i + 1)
    have hpow : (0 : ℚ) < 2 ^ i := by positivity
    have h1 : q / 2 ^ i ≤ 1 / 2 ^ i := by gcongr
    have h2 : (2 : ℚ) / 2 ^ (i + 1) = 1 / 2 ^ i := by
      rw [pow_succ]
      field_simp
      ring
    have h3 : totalFrom (i + 1) qs < 1 / 2 ^ i := h2 ▸ hqs
    calc totalFrom i (q :: qs) = q / 2 ^ i + totalFrom (i + 1) qs := rfl
      _ < 1 / 2 ^ i + 1 / 2 ^ i := add_lt_add_of_le_of_lt h1 h3
      _ = 2 / 2 ^ i := by ring

/-- C5: `keyword_ranking` computes exactly the spec's aggregation — weight
each keyword by its vocabulary weight (or 0.25 out of vocabulary), sort the
weights descending, and sum `weight_i / 2^i` — and on the input
`{finance: 1.0, budget: 1.0}` the total is 1.5. -/
theorem keyword_ranking_matches_spec :
    (∀ kw_link : LinkKeywords,
      (keyword_ranking kw_link).2 = rankingSpecTotal kw_link) ∧
    (keyword_ranking ⟨"https://finance.com", "Budget Link",
        [("finance", 1), ("budget", 1)]⟩).2 = 3/2 := by
  constructor
  · intro kw_link
    simp only [keyword_ranking, rankingSpecTotal]
    rw [totalLoop_eq_totalFrom, map_snd_sortDescP]
  · simp only [keyword_ranking]
    rw [totalLoop_eq_totalFrom, map_snd_sortDescP]
    have hf : lookupKW "finance" KEYWORDS = some 1 := rfl
    have hb : lookupKW "budget" KEYWORDS = some 1 := rfl
    norm_num [weightKeywords, hf, hb, sortDescQ, insertDescQ, totalFrom]

/-- C6 counterexample: the classifier's raw scores are trusted, so a raw
score outside [0,1] (here `{budget: 5.0}`) drives the aggregated total to
5, outside the claimed interval [0, 2). -/
theorem keyword_ranking_unbounded_cex :
    ¬(0 ≤ (keyword_ranking ⟨"u", "t", [("budget", 5)]⟩).2 ∧
      (keyword_ranking ⟨"u", "t", [("budget", 5)]⟩).2 < 2) := by
  have ht : (keyword_ranking ⟨"u", "t", [("budget", 5)]⟩).2 = 5 := by
    simp only [keyword_ranking]
    rw [totalLoop_eq_totalFrom, map_snd_sortDescP]
    have hb : lookupKW "budget" KEYWORDS = some 1 := rfl
    norm_num [weightKeywords, hb, sortDescQ, insertDescQ, totalFrom]
  rw [ht]
  norm_num

/-- C6 (amended): whenever every raw keyword score lies in [0,1] — the range
the prompt requests — the aggregated total of `keyword_ranking` lies in
[0, 2). -/
theorem keyword_ranking_bounded (kw_link : LinkKeywords)
    (h : ∀ p ∈ kw_link.keywords, 0 ≤ p.2 ∧ p.2 ≤ 1) :
    0 ≤ (keyword_ranking kw_link).2 ∧ (keyword_ranking kw_link).2 < 2 := by
  have hw : ∀ x ∈ sortDescQ ((weightKeywords kw_link.keywords).map Prod.snd),
      0 ≤ x ∧ x ≤ 1 := by
    intro x hx
    have hx' := mem_sortDescQ hx
    rw [List.mem_map] at hx'
    obtain ⟨p, hp, hpx⟩ := hx'
    simp only [weightKeywords, List.mem_map] at hp
    obtain ⟨p0, hp0, hpw⟩ := hp
    obtain ⟨hv0, hv1⟩ := h p0 hp0
    rcases hlk : lookupKW p0.1 KEYWORDS with _ | w
    · rw [hlk] at hpw
      rw [← hpx, ← hpw]
      constructor
      · positivity
      · have : p0.2 * (1/4 : ℚ) ≤ 1 * (1/4) := by gcongr
        nlinarith
    · rw [hlk] at hpw
      have hwb := KEYWORDS_weights_bounded _ (lookupKW_mem hlk)
      rw [← hpx, ← hpw]
      constructor
      · exact mul_nonneg hv0 hwb.1
      · calc p0.2 * w ≤ 1 * 1 := by
              apply mul_le_mul hv1 hwb.2 hwb.1 zero_le_one
          _ = 1 := by ring
  have hkr : (keyword_ranking kw_link).2 =
      totalFrom 0 (sortDescQ ((weightKeywords kw_link.keywords).map Prod.snd)) := by
    simp only [keyword_ranking]
    rw [totalLoop_eq_totalFrom, map_snd_sortDescP]
  rw [hkr]
  constructor
  · exact totalFrom_nonneg (fun x hx => (hw x hx).1) 0
  · have := totalFrom_lt (fun x hx => (hw x hx).2) 0
    simpa using this

theorem keyword_ranking_bounded_witness :
    0 ≤ (keyword_ranking ⟨"https://a", "t", [("finance", 1), ("x", 1/2)]⟩).2 ∧
    (keyword_ranking ⟨"https://a", "t", [("finance", 1), ("x", 1/2)]⟩).2 < 2 :=
  keyword_ranking_bounded ⟨"https://a", "t", [("finance", 1), ("x", 1/2)]⟩
    (by intro p hp; fin_cases hp <;> norm_num)

theorem beginsWith_of_append : ∀ {p q s : List Char},
    beginsWith (p ++ q) s = true → beginsWith p s = true
  | [], _, _, _ => rfl
  | _ :: _, _, [], h => by simp [beginsWith] at h
  | x :: xs, q, y :: ys, h => by
    simp only [List.cons_append, beginsWith, Bool.and_eq_true,
      decide_eq_true_eq] at h ⊢
    exact ⟨h.1, beginsWith_of_append h.2⟩

theorem mem_intercalateChar {c x : Char} : ∀ {parts : List (List Char)},
    x ∈ intercalateChar c parts → x = c ∨ ∃ p ∈ parts, x ∈ p
  | [], h => by simp [intercalateChar] at h
  | [p], h => by
    simp only [intercalateChar] at h
    exact Or.inr ⟨p, List.mem_singleton.2 rfl, h⟩
  | p :: p1 :: ps, h => by
    simp only [intercalateChar] at h
    rcases List.mem_append.1 h with h' | h'
    · exact Or.inr ⟨p, List.mem_cons_self _ _, h'⟩
    · rcases List.mem_cons.1 h' with h'' | h''
      · exact Or.inl h''
      · rcases mem_intercalateChar h'' with h3 | ⟨q, hq, hx⟩
        · exact Or.inl h3
        · exact Or.inr ⟨q, List.mem_cons_of_mem _ hq, hx⟩

theorem not_mem_paramStep {d : Char} (hdq : d ≠ '?') (hda : d ≠ '&')
    {s : List Char} (hds : d ∉ s) (mp : Option ℕ) : d ∉ paramStep mp s := by
  cases mp with
  | none => exact hds
  | some k =>
    simp only [paramStep]
    have hp0 : d ∉ s.takeWhile (· ≠ '?') :=
      fun hm => hds (mem_takeWhileNe hm).1
    rcases ha : afterFirst '?' s with _ | r
    · exact hp0
    · by_cases hk : 0 < k
      · simp only [hk, if_true]
        intro hmem
        rcases List.mem_append.1 hmem with h' | h'
        · exact hp0 h'
        · rcases List.mem_cons.1 h' with h'' | h''
          · exact hdq h''
          · rcases mem_intercalateChar h'' with h3 | ⟨q, hq, hx⟩
            · exact hda h3
            · have hq' : q ∈ splitChar '&' r := List.take_subset _ _ hq
              have : d ∈ r := subset_of_mem_splitChar hq' d hx
              exact hds (mem_of_afterFirst ha d this)
      · simp only [hk, if_false]
        exact hp0

theorem beginsWith_http_paramStep (mp : Option ℕ) {s : List Char}
    (h : beginsWith ['h', 't', 't', 'p'] s = true) :
    beginsWith ['h', 't', 't', 'p'] (paramStep mp s) = true := by
  cases mp with
  | none => exact h
  | some k =>
    simp only [paramStep]
    have hp0 : beginsWith ['h', 't', 't', 'p'] (s.takeWhile (· ≠ '?')) = true :=
      beginsWith_takeWhile h (by decide)
    rcases afterFirst '?' s with _ | r
    · exact hp0
    · by_cases hk : 0 < k
      · simp only [hk, if_true]
        exact beginsWith_append _ hp0
      · simp only [hk, if_false]
        exact hp0

theorem normalizeOne_eq_some {b : List Char} {mp : Option ℕ}
    {u v : List Char} (h : normalizeOne b mp u = some v) :
    beginsWith ['h', 't', 't', 'p'] (resolveSlash b u) = true ∧
    v = paramStep mp (stripFragment (resolveSlash b u)) := by
  simp only [normalizeOne] at h
  split at h
  · exact absurd h (by simp)
  · split at h
    · exact absurd h (by simp)
    · rename_i hcheck
      rw [not_not] at hcheck
      rw [Bool.or_eq_true] at hcheck
      have hhttp : beginsWith ['h', 't', 't', 'p'] (resolveSlash b u) = true := by
        rcases hcheck with h' | h'
        · exact h'
        · exact beginsWith_of_append (p := ['h', 't', 't', 'p']) (q := ['s']) h'
      exact ⟨hhttp, (Option.some_injective _ h).symm⟩

theorem normalizeOne_http {b : List Char} {mp : Option ℕ} {u v : List Char}
    (h : normalizeOne b mp u = some v) :
    beginsWith ['h', 't', 't', 'p'] v = true := by
  obtain ⟨hs, hv⟩ := normalizeOne_eq_some h
  rw [hv]
  exact beginsWith_http_paramStep mp (beginsWith_takeWhile hs (by decide))

theorem normalizeOne_no_hash {b : List Char} {mp : Option ℕ} {u v : List Char}
    (h : normalizeOne b mp u = some v) : '#' ∉ v := by
  obtain ⟨_, hv⟩ := normalizeOne_eq_some h
  rw [hv]
  refine not_mem_paramStep (by decide) (by decide) ?_ mp
  intro hm
  exact (mem_takeWhileNe hm).2 rfl

theorem paramStep_no_q {k : ℕ} {t : List Char} (h : '?' ∉ t) :
    paramStep (some k) t = t := by
  simp only [paramStep, takeWhileNe_eq_self h, afterFirst_eq_none.2 h]

theorem paramStep_idem (mp : Option ℕ) (s : List Char) :
    paramStep mp (paramStep mp s) = paramStep mp s := by
  cases mp with
  | none => rfl
  | some k =>
    have hq0 : '?' ∉ s.takeWhile (· ≠ '?') :=
      fun hm => (mem_takeWhileNe hm).2 rfl
    rcases ha : afterFirst '?' s with _ | r
    · have hq : '?' ∉ s := afterFirst_eq_none.1 ha
      rw [paramStep_no_q hq, paramStep_no_q hq]
    · by_cases hk : 0 < k
      · have hstep : paramStep (some k) s =
            s.takeWhile (· ≠ '?') ++
              '?' :: intercalateChar '&' ((splitChar '&' r).take k) := by
          simp only [paramStep, ha, hk, if_true]
        have hne : (splitChar '&' r).take k ≠ [] := by
          rcases hsp : splitChar '&' r with _ | ⟨a, t⟩
          · exact absurd hsp (splitChar_ne_nil '&' r)
          · obtain ⟨k', rfl⟩ : ∃ k', k = k' + 1 := ⟨k - 1, by omega⟩
            simp
        have hamp : ∀ p ∈ (splitChar '&' r).take k, '&' ∉ p := fun p hp =>
          not_mem_of_mem_splitChar (List.take_subset _ _ hp)
        have hsplit :
            splitChar '&' (intercalateChar '&' ((splitChar '&' r).take k)) =
              (splitChar '&' r).take k :=
          splitChar_intercalateChar hne hamp
        have hlen : ((splitChar '&' r).take k).length ≤ k :=
          List.length_take_le _ _
        rw [hstep]
        simp only [paramStep, takeWhileNe_append_cons _ hq0,
          afterFirst_append_cons _ hq0, hk, if_true, hsplit,
          List.take_of_length_le hlen]
      · have hk0 : k = 0 := by omega
        have hstep : paramStep (some k) s = s.takeWhile (· ≠ '?') := by
          simp only [paramStep, ha, hk0]
          simp
        rw [hstep, paramStep_no_q hq0]

/-- C8: the per-candidate normalization of `extract_links` is idempotent —
for any href it accepts, feeding the normalized URL back through the
normalization accepts it and returns it unchanged. -/
theorem normalizeOne_idempotent (b : List Char) (mp : Option ℕ)
    (u v : List Char) (h : normalizeOne b mp u = some v) :
    normalizeOne b mp v = some v := by
  obtain ⟨hs, hv⟩ := normalizeOne_eq_some h
  have hvhttp : beginsWith ['h', 't', 't', 'p'] v = true := normalizeOne_http h
  have hvnohash : '#' ∉ v := normalizeOne_no_hash h
  have h1 : beginsWith ['#'] v = false := beginsWith_single_false hvhttp (by decide)
  have h2 : beginsWith ['/'] v = false := beginsWith_single_false hvhttp (by decide)
  have hres : resolveSlash b v = v := by
    rw [resolveSlash, if_neg (by simp [h2])]
  rw [normalizeOne, if_neg (by simp [h1]), hres, if_neg (by simp [hvhttp])]
  rw [stripFragment, takeWhileNe_eq_self hvnohash]
  rw [hv, paramStep_idem]

theorem normalizeOne_idempotent_witness :
    normalizeOne "http://e".toList (some 2) "http://e/a?x=1&y=2".toList =
      some "http://e/a?x=1&y=2".toList :=
  normalizeOne_idempotent "http://e".toList (some 2)
    "/a?x=1&y=2&z=3#f".toList "http://e/a?x=1&y=2".toList (by decide)

/-- C7 counterexample: a candidate href whose scheme is `httpevil` — neither
http nor https — survives normalization and appears in the output, because
the code's filter is merely `href.startswith("http")`. -/
theorem cleanLinks_scheme_cex :
    cleanLinks "http://ex.com".toList none
        [⟨"httpevil://x".toList, []⟩] = [⟨"httpevil://x".toList, []⟩] ∧
    ¬ schemeIsHttp "httpevil://x".toList := by
  constructor
  · decide
  · unfold schemeIsHttp
    decide

/-- C7 (amended): every record in `extract_links`' output has a URL that
begins with the literal prefix `http` (after resolving a leading `/` against
the site base): candidates failing `startswith("http")` are rejected.  The
check is a string-prefix test, not a scheme test, so schemes such as
`httpevil` also pass. -/
theorem cleanLinks_all_http (b : List Char) (mp : Option ℕ)
    (raw : List ExtractedLink) :
    ∀ l ∈ cleanLinks b mp raw,
      beginsWith ['h', 't', 't', 'p'] l.url = true := by
  intro l hl
  simp only [cleanLinks, List.mem_filterMap] at hl
  obtain ⟨l0, _, hmap⟩ := hl
  rcases hv : normalizeOne b mp l0.url with _ | u
  · rw [hv] at hmap
    simp at hmap
  · rw [hv] at hmap
    simp only [Option.map_some', Option.some_inj] at hmap
    rw [← hmap]
    exact normalizeOne_http hv

theorem cleanLinks_all_http_witness :
    beginsWith ['h', 't', 't', 'p']
      (ExtractedLink.mk "http://ex.com/a".toList []).url = true :=
  cleanLinks_all_http "http://ex.com".toList none
    [⟨"http://ex.com/a".toList, []⟩]
    ⟨"http://ex.com/a".toList, []⟩ (by decide)

/-- C1 counterexample, two independent defects of the claim as stated.
First, `Crawler.run` enqueues the seed URL without the `allowed_to_crawl`
filter: with `max_components = 1` and seed `http://ex.com/a/b/c` (a
three-component path), `add_to_queue` admits the seed even though the
admission predicate fails on the component cap.  Second, the robots
conjunct fails even for URLs enqueued through the guarded link loop:
`robot_allowed` calls `can_fetch(url, "*")` with swapped arguments
(the stdlib signature is `can_fetch(useragent, url)`), so the robots rules
are matched against the literal path `%2A` and a URL the robots file
disallows (`http://ex.com/private/docs` under `Disallow: /private`) passes
`allowed_to_crawl` and is enqueued, although a proper
`can_fetch("*", url)` denies it. -/
theorem seed_bypasses_admission_cex :
    ((runSeedEnqueue cexCfg).1 = true ∧
      ¬ claimAdmission cexCfg initFrontier cexCfg.seed_url 0) ∧
    (allowed_to_crawl robotsCfg "http://ex.com/private/docs".toList = true ∧
      (add_to_queue robotsCfg initFrontier
        "http://ex.com/private/docs".toList 1).1 = true ∧
      can_fetch robotsCfg.robots ['*'] "http://ex.com/private/docs".toList =
        false) := by
  refine ⟨⟨by decide, ?_⟩, by decide, by decide, by decide⟩
  intro hadm
  obtain ⟨_, _, h3, _, _⟩ := hadm
  have hle := h3 1 rfl
  have h3' : numComponents (urlPath cexCfg.seed_url) = 3 := by decide
  omega

theorem add_true_result {c : CrawlCfg} {s : Frontier} {url : List Char}
    {depth : ℕ} (h : (add_to_queue c s url depth).1 = true) :
    (add_to_queue c s url depth).2 =
      ⟨url :: s.visited, s.queue ++ [(url, depth + 1)], s.count + 1⟩ ∧
    url ∉ s.visited := by
  by_cases h1 : (truthy c.max_count && decide (c.max_count.getD 0 ≤ s.count)) = true
  · simp [add_to_queue, h1] at h
  · by_cases h2 : (truthy c.max_depth && decide (c.max_depth.getD 0 < depth)) = true
    · simp [add_to_queue, h1, h2] at h
    · by_cases h3 : url ∈ s.visited
      · simp [add_to_queue, h1, h2, h3] at h
      · simp [add_to_queue, h1, h2, h3]

theorem add_false_result {c : CrawlCfg} {s : Frontier} {url : List Char}
    {depth : ℕ} (h : (add_to_queue c s url depth).1 = false) :
    (add_to_queue c s url depth).2 = s := by
  by_cases h1 : (truthy c.max_count && decide (c.max_count.getD 0 ≤ s.count)) = true
  · simp [add_to_queue, h1]
  · by_cases h2 : (truthy c.max_depth && decide (c.max_depth.getD 0 < depth)) = true
    · simp [add_to_queue, h1, h2]
    · by_cases h3 : url ∈ s.visited
      · simp [add_to_queue, h1, h2, h3]
      · simp [add_to_queue, h1, h2, h3] at h

/-- C1 (amended): every URL that reaches the frontier through the link loop
of `process_url` — i.e. one that passed `allowed_to_crawl` before an
admitting `add_to_queue` — satisfies, at the moment of enqueue: the
robots gate AS IMPLEMENTED (`robot_allowed`, which calls
`can_fetch(url, "*")` with swapped arguments and therefore does NOT check
that robots.txt allows the URL — the claim's robots.txt conjunct does not
hold, see the counterexample); its host equals the seed's host; it is
under the component cap; and the depth and count caps hold whenever they
are set to a positive value (a cap set to 0 is falsy in Python and
disables the check).  The seed bypasses even these gate conditions. -/
theorem allowed_admitted_satisfies (c : CrawlCfg) (s : Frontier)
    (url : List Char) (depth : ℕ)
    (hallow : allowed_to_crawl c url = true)
    (hadd : (add_to_queue c s url depth).1 = true) :
    robot_allowed c.robots url = true ∧
    urlNetloc url = urlNetloc c.seed_url ∧
    (∀ m, c.max_components = some m → numComponents (urlPath url) ≤ m) ∧
    (∀ m, c.max_depth = some m → 0 < m → depth ≤ m) ∧
    (∀ m, c.max_count = some m → 0 < m → s.count < m) := by
  have h1 : ¬(truthy c.max_count && decide (c.max_count.getD 0 ≤ s.count)) = true := by
    intro hb
    simp [add_to_queue, hb] at hadd
  have h2 : ¬(truthy c.max_depth && decide (c.max_depth.getD 0 < depth)) = true := by
    intro hb
    simp [add_to_queue, h1, hb] at hadd
  have hrob : robot_allowed c.robots url = true := by
    by_contra hr
    simp [allowed_to_crawl, hr] at hallow
  have hnet : urlNetloc url = c.domain := by
    by_contra hn
    simp [allowed_to_crawl, hrob, hn] at hallow
  refine ⟨hrob, hnet, ?_, ?_, ?_⟩
  · intro m hm
    by_contra hgt
    push_neg at hgt
    simp [allowed_to_crawl, hrob, hnet, hm, hgt] at hallow
  · intro m hm hpos
    by_contra hgt
    push_neg at hgt
    apply h2
    rw [hm]
    obtain ⟨m', rfl⟩ : ∃ m', m = m' + 1 := ⟨m - 1, by omega⟩
    simp only [truthy, Bool.true_and]
    simpa using hgt
  · intro m hm hpos
    by_contra hge
    push_neg at hge
    apply h1
    rw [hm]
    obtain ⟨m', rfl⟩ : ∃ m', m = m' + 1 := ⟨m - 1, by omega⟩
    simp only [truthy, Bool.true_and]
    simpa using hge

theorem allowed_admitted_satisfies_witness :
    robot_allowed capsCfg.robots "http://ex.com/a".toList = true ∧
    urlNetloc "http://ex.com/a".toList = urlNetloc capsCfg.seed_url :=
  ⟨(allowed_admitted_satisfies capsCfg initFrontier "http://ex.com/a".toList 1
      (by decide) (by decide)).1,
   (allowed_admitted_satisfies capsCfg initFrontier "http://ex.com/a".toList 1
      (by decide) (by decide)).2.1⟩

theorem visited_sub_applyOp (c : CrawlCfg) (s : Frontier) (op : FrontierOp) :
    ∀ u ∈ s.visited, u ∈ (applyOp c s op).visited := by
  intro u hu
  cases op with
  | deq => exact hu
  | add u' d =>
    simp only [applyOp]
    cases htrue : (add_to_queue c s u' d).1 with
    | true =>
      rw [(add_true_result htrue).1]
      exact List.mem_cons_of_mem _ hu
    | false =>
      rw [add_false_result htrue]
      exact hu

theorem visited_sub_runOps (c : CrawlCfg) :
    ∀ (ops : List FrontierOp) (s : Frontier), ∀ u ∈ s.visited,
      u ∈ (runOps c s ops).visited := by
  intro ops
  induction ops with
  | nil => intro s u hu; exact hu
  | cons op rest ih =>
    intro s u hu
    exact ih _ u (visited_sub_applyOp c s op u hu)

theorem admitCount_visited (c : CrawlCfg) :
    ∀ (ops : List FrontierOp) (s : Frontier) (u : List Char),
      u ∈ s.visited → admitCount c s ops u = 0 := by
  intro ops
  induction ops with
  | nil => intros; rfl
  | cons op rest ih =>
    intro s u hu
    cases op with
    | deq =>
      simp only [admitCount]
      exact ih _ u (visited_sub_applyOp c s .deq u hu)
    | add u' d =>
      simp only [admitCount]
      have hind : (if u' = u ∧ (add_to_queue c s u' d).1 = true then 1 else 0) = 0 := by
        split
        · rename_i hcond
          obtain ⟨rfl, htrue⟩ := hcond
          exact absurd hu (add_true_result htrue).2
        · rfl
      rw [hind, zero_add]
      exact ih _ u (visited_sub_applyOp c s (.add u' d) u hu)

theorem admitCount_le_one (c : CrawlCfg) :
    ∀ (ops : List FrontierOp) (s : Frontier) (u : List Char),
      admitCount c s ops u ≤ 1 := by
  intro ops
  induction ops with
  | nil => intros; simp [admitCount]
  | cons op rest ih =>
    intro s u
    cases op with
    | deq =>
      simp only [admitCount]
      exact ih _ u
    | add u' d =>
      simp only [admitCount]
      split
      · rename_i hcond
        obtain ⟨rfl, htrue⟩ := hcond
        have hres := (add_true_result htrue).1
        have hvis : u' ∈ (applyOp c s (.add u' d)).visited := by
          simp only [applyOp]
          rw [hres]
          exact List.mem_cons_self _ _
        rw [admitCount_visited c rest _ u' hvis]
      · rw [zero_add]
        exact ih _ u

theorem occQ_append (u : List Char) (q1 q2 : List (List Char × Nat)) :
    occQ u (q1 ++ q2) = occQ u q1 + occQ u q2 := by
  simp [occQ, List.filter_append]

theorem occQ_tail (u : List Char) (q : List (List Char × Nat)) :
    occQ u q.tail + (if q.head?.map Prod.fst = some u then 1 else 0) =
      occQ u q := by
  cases q with
  | nil => simp [occQ]
  | cons h t =>
    simp only [List.tail_cons, List.head?_cons, Option.map_some']
    by_cases hh : h.1 = u
    · simp [occQ, List.filter_cons, hh]
    · have : ¬ (some h.1 = some u) := by simpa using hh
      simp [occQ, List.filter_cons, hh, this]

theorem frontier_conservation (c : CrawlCfg) :
    ∀ (ops : List FrontierOp) (s : Frontier) (u : List Char),
      deqCount c s ops u + occQ u (runOps c s ops).queue =
        occQ u s.queue + admitCount c s ops u := by
  intro ops
  induction ops with
  | nil => intros; simp [deqCount, admitCount, runOps]
  | cons op rest ih =>
    intro s u
    cases op with
    | add u' d =>
      simp only [deqCount, admitCount, runOps]
      rw [ih]
      have hq : occQ u (applyOp c s (.add u' d)).queue =
          occQ u s.queue +
            (if u' = u ∧ (add_to_queue c s u' d).1 = true then 1 else 0) := by
        cases htrue : (add_to_queue c s u' d).1 with
        | true =>
          simp only [applyOp]
          rw [(add_true_result htrue).1]
          simp only [occQ_append]
          by_cases hu : u' = u
          · simp [occQ, List.filter_cons, hu, htrue]
          · simp [occQ, List.filter_cons, hu, htrue]
        | false =>
          simp only [applyOp]
          rw [add_false_result htrue]
          simp [htrue]
      rw [hq]
      ring
    | deq =>
      simp only [deqCount, admitCount, runOps]
      have hih := ih (applyOp c s .deq) u
      have hto := occQ_tail u s.queue
      have happ : (applyOp c s FrontierOp.deq).queue = s.queue.tail := rfl
      rw [happ] at hih
      omega

/-- C2: over every sequence of frontier operations in a run, the visited set
only grows (a URL once visited stays visited through any further
operations), `add_to_queue` returns `True` for a given URL at most once per
run, and consequently a given URL is dequeued — processed — at most once
per run. -/
theorem frontier_visited_once (c : CrawlCfg) (ops : List FrontierOp)
    (u : List Char) (s : Frontier) :
    (u ∈ s.visited → u ∈ (runOps c s ops).visited) ∧
    admitCount c initFrontier ops u ≤ 1 ∧
    deqCount c initFrontier ops u ≤ 1 := by
  refine ⟨fun hu => visited_sub_runOps c ops s u hu,
    admitCount_le_one c ops _ u, ?_⟩
  have hc := frontier_conservation c ops initFrontier u
  have h1 := admitCount_le_one c ops initFrontier u
  have h0 : occQ u (initFrontier).queue = 0 := rfl
  omega

theorem frontier_visited_once_witness :
    "http://e/a".toList ∈
      (runOps freeCfg ⟨["http://e/a".toList], [], 1⟩
        [.add "http://e/a".toList 0, .deq]).visited ∧
    admitCount freeCfg initFrontier [.add "http://e/a".toList 0, .deq]
      "http://e/a".toList ≤ 1 ∧
    deqCount freeCfg initFrontier [.add "http://e/a".toList 0, .deq]
      "http://e/a".toList ≤ 1 :=
  ⟨(frontier_visited_once freeCfg [.add "http://e/a".toList 0, .deq]
      "http://e/a".toList ⟨["http://e/a".toList], [], 1⟩).1 (by decide),
   (frontier_visited_once freeCfg [.add "http://e/a".toList 0, .deq]
      "http://e/a".toList ⟨["http://e/a".toList], [], 1⟩).2.1,
   (frontier_visited_once freeCfg [.add "http://e/a".toList 0, .deq]
      "http://e/a".toList ⟨["http://e/a".toList], [], 1⟩).2.2⟩

theorem keyRows_map_keyed (site : Nat) (u : String) (g : PageRow → PageRow)
    (hg : ∀ r, pageKeyB site u r = true → pageKeyB site u (g r) = true)
    (db : List PageRow) :
    keyRows site u (db.map (fun r => if pageKeyB site u r then g r else r)) =
      (keyRows site u db).map g := by
  induction db with
  | nil => rfl
  | cons r rest ih =>
    simp only [List.map_cons, keyRows, List.filter_cons] at ih ⊢
    cases hk : pageKeyB site u r with
    | true =>
      simp only [hk, if_true, hg r hk, List.map_cons]
      rw [ih]
    | false =>
      simp only [hk, if_false, Bool.false_eq_true]
      rw [ih]

theorem keyRows_map_if_ne (site : Nat) (u : String) (site' : Nat)
    (url' : String) (hne : url' ≠ u) (g : PageRow → PageRow)
    (hg : ∀ r, (g r).site_id = r.site_id ∧ (g r).url = r.url)
    (db : List PageRow) :
    keyRows site u (db.map (fun r => if pageKeyB site' url' r then g r else r)) =
      keyRows site u db := by
  induction db with
  | nil => rfl
  | cons r rest ih =>
    simp only [List.map_cons, keyRows, List.filter_cons] at ih ⊢
    cases hk' : pageKeyB site' url' r with
    | false =>
      simp only [hk', if_false, Bool.false_eq_true]
      rw [ih]
    | true =>
      have hku : pageKeyB site u r = false := by
        cases hku : pageKeyB site u r with
        | false => rfl
        | true =>
          exact absurd
            ((pageKeyB_iff.1 hk').2.symm.trans (pageKeyB_iff.1 hku).2) hne
      have hgku : pageKeyB site u (g r) = false := by
        have hsame : pageKeyB site u (g r) = pageKeyB site u r := by
          simp [pageKeyB, (hg r).1, (hg r).2]
        rw [hsame, hku]
      simp [hgku, hku, ih]

theorem keyRows_append (site : Nat) (u : String) (db1 db2 : List PageRow) :
    keyRows site u (db1 ++ db2) = keyRows site u db1 ++ keyRows site u db2 := by
  simp [keyRows, List.filter_append]

theorem keyRows_upsert_self (site : Nat) (url : String) (db : List PageRow)
    (h : String) (t : Int) (e : Option String) :
    ∀ r ∈ keyRows site url (upsert_page db ⟨site, url, h, t, e⟩),
      r.hash = h ∧ r.crawl_time = t ∧
      (r.error = e ∨
        ∃ r0 ∈ db, r0.site_id = site ∧ r0.url = url ∧ r.error = r0.error) := by
  intro r hr
  simp only [upsert_page] at hr
  by_cases hany : db.any (pageKeyB site url) = true
  · rw [if_pos hany] at hr
    rw [keyRows_map_keyed site url _
      (fun r' hk => by
        have := pageKeyB_iff.1 hk
        exact pageKeyB_iff.2 ⟨this.1, this.2⟩) db] at hr
    rw [List.mem_map] at hr
    obtain ⟨r0, hr0, hrq⟩ := hr
    have hr0' := List.mem_filter.1 hr0
    have hkey := pageKeyB_iff.1 hr0'.2
    refine ⟨by rw [← hrq], by rw [← hrq], Or.inr ⟨r0, hr0'.1, hkey.1, hkey.2, ?_⟩⟩
    rw [← hrq]
  · rw [if_neg hany] at hr
    rw [keyRows_append] at hr
    have hempty : keyRows site url db = [] := by
      simp only [keyRows]
      rw [List.filter_eq_nil_iff]
      intro r' hr'
      intro hk
      exact hany (List.any_eq_true.2 ⟨r', hr', hk⟩)
    rw [hempty, List.nil_append] at hr
    have hp : pageKeyB site url (⟨site, url, h, t, e⟩ : PageRow) = true := by
      simp [pageKeyB]
    simp only [keyRows, List.filter_cons, hp, if_true, List.filter_nil] at hr
    rw [List.mem_singleton.1 hr]
    exact ⟨rfl, rfl, Or.inl rfl⟩

theorem keyRows_update_hash_self (site : Nat) (url : String)
    (db : List PageRow) (h : String) :
    keyRows site url (update_page_hash db site url h) =
      (keyRows site url db).map (fun r => { r with hash := h }) := by
  simp only [update_page_hash]
  exact keyRows_map_keyed site url _
    (fun r hk => by
      have := pageKeyB_iff.1 hk
      exact pageKeyB_iff.2 ⟨this.1, this.2⟩) db

theorem keyRows_update_error_self (site : Nat) (url : String)
    (db : List PageRow) (e : String) :
    keyRows site url (update_page_error db site url e) =
      (keyRows site url db).map
        (fun r => { r with error := some e, crawl_time := r.crawl_time - 1 }) := by
  simp only [update_page_error]
  exact keyRows_map_keyed site url _
    (fun r hk => by
      have := pageKeyB_iff.1 hk
      exact pageKeyB_iff.2 ⟨this.1, this.2⟩) db

theorem keyRows_upsert_ne (site : Nat) (u : String) (db : List PageRow)
    (p : PageRow) (hne : p.url ≠ u) :
    keyRows site u (upsert_page db p) = keyRows site u db := by
  simp only [upsert_page]
  by_cases hany : db.any (pageKeyB p.site_id p.url) = true
  · rw [if_pos hany]
    exact keyRows_map_if_ne site u p.site_id p.url hne
      (fun r => { r with hash := p.hash, crawl_time := p.crawl_time })
      (fun r => ⟨rfl, rfl⟩) db
  · rw [if_neg hany, keyRows_append]
    have hp : pageKeyB site u p = false := by
      cases hk : pageKeyB site u p with
      | false => rfl
      | true => exact absurd (pageKeyB_iff.1 hk).2 hne
    simp [keyRows, List.filter_cons, hp]

theorem keyRows_update_hash_ne (site : Nat) (u : String) (db : List PageRow)
    (site' : Nat) (url' : String) (h : String) (hne : url' ≠ u) :
    keyRows site u (update_page_hash db site' url' h) = keyRows site u db := by
  simp only [update_page_hash]
  exact keyRows_map_if_ne site u site' url' hne
    (fun r => { r with hash := h }) (fun r => ⟨rfl, rfl⟩) db

theorem keyRows_update_error_ne (site : Nat) (u : String) (db : List PageRow)
    (site' : Nat) (url' : String) (e : String) (hne : url' ≠ u) :
    keyRows site u (update_page_error db site' url' e) = keyRows site u db := by
  simp only [update_page_error]
  exact keyRows_map_if_ne site u site' url' hne
    (fun r => { r with error := some e, crawl_time := r.crawl_time - 1 })
    (fun r => ⟨rfl, rfl⟩) db

theorem keyRows_processUrl_ne (site : Nat) (T : Int) (db : List PageRow)
    (url' : String) (o : UrlOutcome) (u : String) (hne : url' ≠ u) :
    keyRows site u (processUrlDb site T db url' o) = keyRows site u db := by
  cases o with
  | renderFail e => exact keyRows_upsert_ne site u db _ hne
  | okRender h le =>
    cases le with
    | none =>
      rw [processUrlDb, keyRows_update_hash_ne site u _ site url' h hne]
      exact keyRows_upsert_ne site u db _ hne
    | some e =>
      rw [processUrlDb, keyRows_update_error_ne site u _ site url' e hne]
      exact keyRows_upsert_ne site u db _ hne

theorem keyRows_runDb_not_mem (site : Nat) (T : Int) :
    ∀ (steps : List (String × UrlOutcome)) (db : List PageRow) (u : String),
      (∀ p ∈ steps, p.1 ≠ u) →
      keyRows site u (runDb site T db steps) = keyRows site u db := by
  intro steps
  induction steps with
  | nil => intros; rfl
  | cons su rest ih =>
    intro db u hall
    rcases su with ⟨url', o⟩
    rw [runDb, ih _ u (fun p hp => hall p (List.mem_cons_of_mem _ hp))]
    exact keyRows_processUrl_ne site T db url' o u
      (hall (url', o) (List.mem_cons_self _ _))

theorem processUrl_self (site : Nat) (T : Int) (db : List PageRow)
    (url : String) (o : UrlOutcome) :
    ∀ r ∈ keyRows site url (processUrlDb site T db url o),
      (r.crawl_time = T ∨ r.crawl_time = T - 1) ∧
      (r.crawl_time = T - 1 →
        r.hash = "" ∧
        (r.error = none →
          (∃ e, o = UrlOutcome.renderFail e) ∧
          ∃ r0 ∈ db, r0.site_id = site ∧ r0.url = url ∧ r0.error = none)) := by
  intro r hr
  cases o with
  | renderFail e =>
    obtain ⟨hh, ht, herr⟩ := keyRows_upsert_self site url db "" (T - 1) (some e) r hr
    refine ⟨Or.inr ht, fun _ => ⟨hh, fun hnone => ?_⟩⟩
    rcases herr with h' | ⟨r0, hr0, hs, hu, he⟩
    · rw [hnone] at h'
      exact absurd h' (by simp)
    · exact ⟨⟨e, rfl⟩, r0, hr0, hs, hu, by rw [← he, ← hnone]⟩
  | okRender h le =>
    cases le with
    | none =>
      rw [processUrlDb, keyRows_update_hash_self] at hr
      rw [List.mem_map] at hr
      obtain ⟨r1, hr1, hrq⟩ := hr
      obtain ⟨hh1, ht1, _⟩ := keyRows_upsert_self site url db "" T none r1 hr1
      have ht : r.crawl_time = T := by rw [← hrq]; exact ht1
      refine ⟨Or.inl ht, fun htd => absurd (ht ▸ htd) (by omega)⟩
    | some e =>
      rw [processUrlDb, keyRows_update_error_self] at hr
      rw [List.mem_map] at hr
      obtain ⟨r1, hr1, hrq⟩ := hr
      obtain ⟨hh1, ht1, _⟩ := keyRows_upsert_self site url db "" T none r1 hr1
      have ht : r.crawl_time = T - 1 := by rw [← hrq]; simp [ht1]
      have hh : r.hash = "" := by rw [← hrq]; exact hh1
      have herr : r.error = some e := by rw [← hrq]
      refine ⟨Or.inr ht, fun _ => ⟨hh, fun hnone => ?_⟩⟩
      rw [herr] at hnone
      exact absurd hnone (by simp)

/-- C3 counterexample: a page that existed before the run with a `NULL`
error and whose re-crawl fails to render ends the run backdated
(`crawl_time = run_start - 1`) with an empty hash but a still-`NULL` error:
the render-failure upsert conflicts on `(site_id, url)` and the conflict
update does not write the `error` column. -/
theorem backdated_null_error_cex :
    runDb 1 100 [⟨1, "u", "h0", 50, none⟩] [("u", .renderFail "boom")] =
      [⟨1, "u", "", 100 - 1, none⟩] := by
  decide

/-- C3 (amended): for a run processing pairwise-distinct URLs, every page
row touched by a processed URL ends the run with
`crawl_time ∈ {run_start, run_start - 1s}`; every backdated row has an
empty-string hash; and a backdated row has a non-null error unless it was
backdated by the render-failure path while a row with that key already
existed before the run with a null stored error (the conflict upsert leaves
`error` unchanged). -/
theorem runDb_crawl_times (site : Nat) (T : Int) (db : List PageRow)
    (steps : List (String × UrlOutcome))
    (hnd : (steps.map Prod.fst).Nodup) :
    ∀ su ∈ steps, ∀ r ∈ keyRows site su.1 (runDb site T db steps),
      (r.crawl_time = T ∨ r.crawl_time = T - 1) ∧
      (r.crawl_time = T - 1 →
        r.hash = "" ∧
        (r.error = none →
          (∃ e, su.2 = UrlOutcome.renderFail e) ∧
          ∃ r0 ∈ db, r0.site_id = site ∧ r0.url = su.1 ∧ r0.error = none)) := by
  induction steps generalizing db with
  | nil => intro su hsu; exact absurd hsu (List.not_mem_nil su)
  | cons hd rest ih =>
    rcases hd with ⟨url, o⟩
    rw [List.map_cons, List.nodup_cons] at hnd
    obtain ⟨hni, hnd'⟩ := hnd
    intro su hsu r hr
    rcases List.mem_cons.1 hsu with rfl | hmem
    · have hframe : keyRows site url (runDb site T db ((url, o) :: rest)) =
          keyRows site url (processUrlDb site T db url o) := by
        rw [runDb]
        exact keyRows_runDb_not_mem site T rest _ url
          (fun p hp hpe => hni (List.mem_map.2 ⟨p, hp, hpe⟩))
      rw [hframe] at hr
      exact processUrl_self site T db url o r hr
    · have hne : su.1 ≠ url := by
        intro heq
        exact hni (List.mem_map.2 ⟨su, hmem, heq⟩)
      have hres := ih (processUrlDb site T db url o) hnd' su hmem r hr
      refine ⟨hres.1, fun htd => ⟨(hres.2 htd).1, fun hnone => ?_⟩⟩
      obtain ⟨hrf, r0, hr0, hs, hu, he⟩ := (hres.2 htd).2 hnone
      have hr0k : r0 ∈ keyRows site su.1 (processUrlDb site T db url o) :=
        List.mem_filter.2 ⟨hr0, pageKeyB_iff.2 ⟨hs, hu⟩⟩
      rw [keyRows_processUrl_ne site T db url o su.1 (fun h => hne h.symm)] at hr0k
      exact ⟨hrf, r0, (List.mem_filter.1 hr0k).1, hs, hu, he⟩

theorem runDb_crawl_times_witness :
    (⟨1, "u", "h", 100, none⟩ : PageRow).crawl_time = 100 ∨
    (⟨1, "u", "h", 100, none⟩ : PageRow).crawl_time = 100 - 1 :=
  (runDb_crawl_times 1 100 [] [("u", .okRender "h" none)] (by simp)
    ("u", .okRender "h" none) (List.mem_singleton.2 rfl)
    ⟨1, "u", "h", 100, none⟩ (by decide)).1

end Aiplay
